import Mathlib

/-!
Verification of the conda-lock lock-reconciliation core and its metadata
helpers against the repository specification.

The first part embeds `conda_lock/metadata_validator.py` and
`conda_lock/lockfile_metadata.py` directly.  The second part models the
category-propagation and reconciliation engine described in the
specification (sections 3, 4 and 7), whose implementation is exercised by
`tests/test_regression.py`.
-/

/-! ## Metadata dictionaries

A Python metadata dictionary is modelled as a record with one optional
field per key that the code under `conda_lock/metadata_validator.py`
reads or writes.  `none` means the key is absent; `some v` means the key
is present with value `v`.  An entirely absent record (`emptyMeta`)
corresponds to the empty Python dict, which is falsy.
-/

structure MetaDict where
  name : Option String := none
  version : Option String := none
  build : Option String := none
  build_number : Option Int := none
  depends : Option (List String) := none
  constrains : Option (List String) := none
  channel : Option String := none
  subdir : Option String := none
  url : Option String := none
  fn : Option String := none
  license : Option String := none
  license_family : Option String := none
  md5 : Option String := none
  sha256 : Option String := none
  size : Option Int := none
  timestamp : Option Int := none
  track_features : Option String := none
  noarch : Option String := none
  platform : Option String := none
  arch : Option String := none
deriving DecidableEq

/-- The empty Python dict: no keys present. -/
def emptyMeta : MetaDict := {}

/-- Python truthiness of an optional string value: falsy when the key is
absent or the value is the empty string (`not metadata.get(field)`). -/
def strFalsy (o : Option String) : Bool :=
  match o with
  | none => true
  | some s => s == ""

/-- Embeds `validate_metadata` from `conda_lock/metadata_validator.py`
(lines 35-67).  The issue dictionary is modelled by the list of its keys
in insertion order; the human-readable messages are elided.  The first
component is `is_valid`, true exactly when no issue was recorded. -/
def validate_metadata (m : MetaDict) : Bool × List String :=
  let issues : List String :=
    (if m.depends = some [] then ["empty_depends"] else []) ++
    (if m.timestamp = some 0 then ["zero_timestamp"] else []) ++
    (if m.sha256 = none then ["missing_sha256"] else []) ++
    (if m.license = some "" then ["empty_license"] else []) ++
    (if strFalsy m.name then ["missing_name"] else []) ++
    (if strFalsy m.version then ["missing_version"] else []) ++
    (if strFalsy m.channel then ["missing_channel"] else []) ++
    (if strFalsy m.subdir then ["missing_subdir"] else []) ++
    (if strFalsy m.url then ["missing_url"] else [])
  (issues.isEmpty, issues)

/-- Embeds `_convert_index_to_repodata` from
`conda_lock/metadata_validator.py` (lines 107-137): every listed key of
the result is present, populated from the index dict with the defaults
of the Python `index_data.get(key, default)` calls. -/
def _convert_index_to_repodata (d : MetaDict) : MetaDict where
  name := some (d.name.getD "")
  version := some (d.version.getD "")
  build := some (d.build.getD "")
  build_number := some (d.build_number.getD 0)
  depends := some (d.depends.getD [])
  constrains := some (d.constrains.getD [])
  channel := some (d.channel.getD "")
  subdir := some (d.subdir.getD "")
  url := some (d.url.getD "")
  fn := some (d.fn.getD "")
  license := some (d.license.getD "")
  license_family := some (d.license_family.getD "")
  md5 := some (d.md5.getD "")
  sha256 := some (d.sha256.getD "")
  size := some (d.size.getD 0)
  timestamp := some (d.timestamp.getD 0)
  track_features := some (d.track_features.getD "")
  noarch := some (d.noarch.getD "")
  platform := some (d.platform.getD "")
  arch := some (d.arch.getD "")

/-- Python dict merge `{**a, **b}`: a key of `b`, when present,
overrides the same key of `a`. -/
def pickKey {α : Type} (old new : Option α) : Option α :=
  match new with
  | some v => some v
  | none => old

/-- Field-wise embedding of the Python merge `{**a, **b}` used at line
255 of `conda_lock/metadata_validator.py`. -/
def mergeDict (a b : MetaDict) : MetaDict where
  name := pickKey a.name b.name
  version := pickKey a.version b.version
  build := pickKey a.build b.build
  build_number := pickKey a.build_number b.build_number
  depends := pickKey a.depends b.depends
  constrains := pickKey a.constrains b.constrains
  channel := pickKey a.channel b.channel
  subdir := pickKey a.subdir b.subdir
  url := pickKey a.url b.url
  fn := pickKey a.fn b.fn
  license := pickKey a.license b.license
  license_family := pickKey a.license_family b.license_family
  md5 := pickKey a.md5 b.md5
  sha256 := pickKey a.sha256 b.sha256
  size := pickKey a.size b.size
  timestamp := pickKey a.timestamp b.timestamp
  track_features := pickKey a.track_features b.track_features
  noarch := pickKey a.noarch b.noarch
  platform := pickKey a.platform b.platform
  arch := pickKey a.arch b.arch

/-- Embeds `fetch_metadata_from_url` from
`conda_lock/metadata_validator.py` (lines 140-176).  The subprocess call
to curl is abstracted by `curlOk` (whether curl exited with status 0;
exceptions count as failure) and `urlFn` (the filename extracted from
the URL path, when the path is non-empty).  On success the returned dict
has exactly the keys url, depends = [], timestamp = 0, sha256 = "" and
possibly fn, as written by the Python code. -/
def fetch_metadata_from_url (url : String) (curlOk : Bool)
    (urlFn : Option String) : Option MetaDict :=
  if curlOk then
    some { emptyMeta with
            url := some url
            depends := some []
            timestamp := some 0
            sha256 := some ""
            fn := urlFn }
  else
    none

/-- The environment of one `get_robust_metadata` call: everything the
function observes from the filesystem and the network.
`repodataFile = none` means `repodata_record.json` does not exist,
`some none` means reading or parsing it raised, and `some (some m)`
means the dict `m` was read.  `extracted` is the result of
`extract_metadata_from_conda_package` on the package file. -/
structure RobustEnv where
  repodataFile : Option (Option MetaDict)
  packageFilePresent : Bool
  extracted : Option MetaDict
  fallbackUrl : Option String
  curlOk : Bool
  urlFn : Option String

/-- Which return site of `get_robust_metadata` produced the metadata. -/
inductive MetaSource where
  | fromRepodata
  | fromPackageFile
  | fromUrl
deriving DecidableEq

/-- The two exception classes raised by `get_robust_metadata`. -/
inductive RobustError where
  | incompleteMetadata (m : MetaDict) (issues : List String)
  | metadataValidation
deriving DecidableEq

/-- Result of `get_robust_metadata`: a returned dict tagged with its
origin, or a raised exception. -/
inductive RobustResult where
  | ok (m : MetaDict) (src : MetaSource)
  | err (e : RobustError)
deriving DecidableEq

/-- Method 2 of `get_robust_metadata` (lines 235-248): when the package
file is present and extraction produced a truthy dict that validates,
that dict is returned.  The Python truthiness test
`if extracted_metadata:` is decided by comparison with the empty
dict. -/
def tryPackageFile (env : RobustEnv) : Option RobustResult :=
  if env.packageFilePresent then
    match env.extracted with
    | some em =>
      if em ≠ emptyMeta then
        if (validate_metadata em).1 then some (.ok em .fromPackageFile)
        else none
      else none
    | none => none
  else none

/-- Method 3 of `get_robust_metadata` (lines 250-259): when a fallback
URL is given and curl succeeds, the fetched dict is merged over the
incomplete metadata and returned if the merge validates. -/
def tryUrl (env : RobustEnv) (incomplete : MetaDict) : Option RobustResult :=
  match env.fallbackUrl with
  | some url =>
    match fetch_metadata_from_url url env.curlOk env.urlFn with
    | some um =>
      if um ≠ emptyMeta then
        let merged := mergeDict incomplete um
        if (validate_metadata merged).1 then some (.ok merged .fromUrl)
        else none
      else none
    | none => none
  | none => none

/-- The final raise of `get_robust_metadata` (lines 261-274): the
truthiness of `incomplete_metadata` selects the exception class. -/
def finalRaise (incomplete : MetaDict) (issues : List String) : RobustResult :=
  if incomplete ≠ emptyMeta then .err (.incompleteMetadata incomplete issues)
  else .err .metadataValidation

/-- Methods 2 and 3 and the final raise of `get_robust_metadata`
(lines 235-274 of `conda_lock/metadata_validator.py`), entered with the
`incomplete_metadata` and `incomplete_issues` variables set by
method 1. -/
def robustFallback (env : RobustEnv) (incomplete : MetaDict)
    (issues : List String) : RobustResult :=
  match tryPackageFile env with
  | some r => r
  | none =>
    match tryUrl env incomplete with
    | some r => r
    | none => finalRaise incomplete issues

/-- Embeds `get_robust_metadata` from
`conda_lock/metadata_validator.py` (lines 179-274).  Method 1 reads
`repodata_record.json`; a read or parse failure leaves
`incomplete_metadata` as the empty dict, exactly as the Python
`except` clause does. -/
def get_robust_metadata (env : RobustEnv) : RobustResult :=
  match env.repodataFile with
  | some (some m) =>
    if (validate_metadata m).1 then .ok m .fromRepodata
    else robustFallback env m (validate_metadata m).2
  | some none => robustFallback env emptyMeta []
  | none => robustFallback env emptyMeta []

/-! ## Lockfile metadata header (`conda_lock/lockfile_metadata.py`) -/

/-- The module-level mutable default of `make_metadata_header`
(`conda_lock/lockfile_metadata.py` line 38). -/
def DEFAULT_METADATA_TO_INCLUDE : List String := ["previous"]

/-- Python truthiness of the optional `comment` argument: falsy when it
is None or the empty string. -/
def commentTruthy (c : Option String) : Bool :=
  match c with
  | none => false
  | some s => s ≠ ""

/-- Embeds the effect of `make_metadata_header`
(`conda_lock/lockfile_metadata.py` lines 79-98) on its
`metadata_to_include` list argument: the value of that list object
after the call.  The two early returns leave the list untouched;
otherwise `if comment and "comment" not in metadata_to_include` guards
an in-place append of "comment". -/
def make_metadata_header_list_after (metadata_to_include : List String)
    (comment : Option String) : List String :=
  if metadata_to_include = [] then metadata_to_include
  else if metadata_to_include = ["PREVIOUS"] then metadata_to_include
  else if commentTruthy comment ∧ "comment" ∉ metadata_to_include then
    metadata_to_include ++ ["comment"]
  else metadata_to_include

/-! ## Lemmas about the metadata embedding -/

/-- A dict whose depends list is empty never validates: the
empty_depends issue is recorded. -/
lemma validate_false_of_depends_empty (m : MetaDict) (h : m.depends = some []) :
    (validate_metadata m).1 = false := by
  simp [validate_metadata, h]

/-- Merging preserves a depends value supplied by the overriding dict. -/
lemma mergeDict_depends (a b : MetaDict) (h : b.depends = some []) :
    (mergeDict a b).depends = some [] := by
  simp [mergeDict, pickKey, h]

/-- The URL fallback of `get_robust_metadata` never produces a result:
the fetched dict forces depends = [] into the merge, which therefore
never validates. -/
lemma tryUrl_eq_none (env : RobustEnv) (inc : MetaDict) :
    tryUrl env inc = none := by
  unfold tryUrl fetch_metadata_from_url
  cases env.fallbackUrl with
  | none => rfl
  | some url =>
    cases hc : env.curlOk with
    | false => rfl
    | true =>
      dsimp only
      split
      · rename_i em heq
        rw [if_pos rfl] at heq
        have hdep : em.depends = some [] := by
          cases heq
          rfl
        by_cases hne : em = emptyMeta
        · rw [if_neg (by simp [hne])]
        · rw [if_pos hne]
          have h := validate_false_of_depends_empty _ (mergeDict_depends inc em hdep)
          rw [if_neg (by simp [h])]
      · rfl

/-- Inversion for the package-file stage: a produced result is a
validated dict extracted from the package file. -/
lemma tryPackageFile_some (env : RobustEnv) (r : RobustResult)
    (h : tryPackageFile env = some r) :
    ∃ em, r = .ok em .fromPackageFile ∧ (validate_metadata em).1 = true ∧
      env.extracted = some em := by
  unfold tryPackageFile at h
  split at h
  · cases hext : env.extracted with
    | none => rw [hext] at h; cases h
    | some em =>
      rw [hext] at h
      dsimp only at h
      split at h
      · split at h
        · cases h
          exact ⟨em, rfl, by assumption, rfl⟩
        · cases h
      · cases h
  · cases h

/-- Case analysis of the fallback tail of `get_robust_metadata`: the
URL branch never returns, so the call either succeeds from the package
file with validated metadata, or raises according to the truthiness of
`incomplete_metadata`. -/
lemma robustFallback_cases (env : RobustEnv) (inc : MetaDict)
    (iss : List String) :
    (∃ em, robustFallback env inc iss = .ok em .fromPackageFile ∧
      (validate_metadata em).1 = true ∧ env.extracted = some em) ∨
    (robustFallback env inc iss = .err (.incompleteMetadata inc iss) ∧
      inc ≠ emptyMeta) ∨
    (robustFallback env inc iss = .err .metadataValidation ∧
      inc = emptyMeta) := by
  unfold robustFallback
  cases hp : tryPackageFile env with
  | some r =>
    obtain ⟨em, hr, hv, he⟩ := tryPackageFile_some env r hp
    exact .inl ⟨em, by rw [hr], hv, he⟩
  | none =>
    rw [tryUrl_eq_none]
    unfold finalRaise
    by_cases hinc : inc = emptyMeta
    · exact .inr (.inr ⟨by rw [if_neg (by simp [hinc])], hinc⟩)
    · exact .inr (.inl ⟨by rw [if_pos hinc], hinc⟩)

/-- Master case analysis of `get_robust_metadata`. -/
lemma get_robust_metadata_cases (env : RobustEnv) :
    (∃ m, env.repodataFile = some (some m) ∧ (validate_metadata m).1 = true ∧
      get_robust_metadata env = .ok m .fromRepodata) ∨
    (∃ em, get_robust_metadata env = .ok em .fromPackageFile ∧
      (validate_metadata em).1 = true ∧ env.extracted = some em) ∨
    (∃ m, env.repodataFile = some (some m) ∧ (validate_metadata m).1 = false ∧
      m ≠ emptyMeta ∧
      get_robust_metadata env = .err (.incompleteMetadata m (validate_metadata m).2)) ∨
    (get_robust_metadata env = .err .metadataValidation ∧
      ∀ m, env.repodataFile = some (some m) → m = emptyMeta) := by
  unfold get_robust_metadata
  cases hrf : env.repodataFile with
  | none =>
    rcases robustFallback_cases env emptyMeta [] with ⟨em, h, hv, he⟩ | ⟨h, hne⟩ | ⟨h, _⟩
    · exact .inr (.inl ⟨em, h, hv, he⟩)
    · exact absurd rfl hne
    · exact .inr (.inr (.inr ⟨h, fun m hm => nomatch hm⟩))
  | some inner =>
    cases inner with
    | none =>
      rcases robustFallback_cases env emptyMeta [] with ⟨em, h, hv, he⟩ | ⟨h, hne⟩ | ⟨h, _⟩
      · exact .inr (.inl ⟨em, h, hv, he⟩)
      · exact absurd rfl hne
      · exact .inr (.inr (.inr ⟨h, fun m hm => nomatch hm⟩))
    | some m =>
      dsimp only
      by_cases hv : (validate_metadata m).1 = true
      · exact .inl ⟨m, rfl, hv, by rw [if_pos hv]⟩
      · rw [if_neg hv]
        rcases robustFallback_cases env m (validate_metadata m).2 with
          ⟨em, h, hv2, he⟩ | ⟨h, hne⟩ | ⟨h, hemp⟩
        · exact .inr (.inl ⟨em, h, hv2, he⟩)
        · exact .inr (.inr (.inl ⟨m, rfl, by simpa using hv, hne, h⟩))
        · refine .inr (.inr (.inr ⟨h, fun m2 hm2 => ?_⟩))
          cases hm2
          exact hemp

/-- C8: `get_robust_metadata` never returns through its URL-fallback
branch; every successful return carries metadata that passed
`validate_metadata` and came from `repodata_record.json` or from the
package file; an IncompleteMetadataError carries a truthy invalid dict
read from `repodata_record.json`; and a MetadataValidationError means
any dict read from `repodata_record.json` was the empty dict. -/
theorem get_robust_metadata_no_url_success (env : RobustEnv) :
    (∀ m, get_robust_metadata env ≠ .ok m .fromUrl) ∧
    (∀ m src, get_robust_metadata env = .ok m src →
      (validate_metadata m).1 = true ∧ src ≠ .fromUrl) ∧
    (∀ m iss, get_robust_metadata env = .err (.incompleteMetadata m iss) →
      env.repodataFile = some (some m) ∧ (validate_metadata m).1 = false ∧
      m ≠ emptyMeta) ∧
    (get_robust_metadata env = .err .metadataValidation →
      ∀ m, env.repodataFile = some (some m) → m = emptyMeta) := by
  rcases get_robust_metadata_cases env with
    ⟨m, hrf, hv, heq⟩ | ⟨em, heq, hv, hext⟩ |
    ⟨m, hrf, hv, hne, heq⟩ | ⟨heq, hall⟩
  · refine ⟨?_, ?_, ?_, ?_⟩
    · intro m2 h
      rw [heq] at h
      injection h with h1 h2
      exact MetaSource.noConfusion h2
    · intro m2 src h
      rw [heq] at h
      injection h with h1 h2
      subst h1
      subst h2
      exact ⟨hv, by decide⟩
    · intro m2 iss h
      rw [heq] at h
      exact RobustResult.noConfusion h
    · intro h2
      rw [heq] at h2
      exact RobustResult.noConfusion h2
  · refine ⟨?_, ?_, ?_, ?_⟩
    · intro m2 h
      rw [heq] at h
      injection h with h1 h2
      exact MetaSource.noConfusion h2
    · intro m2 src h
      rw [heq] at h
      injection h with h1 h2
      subst h1
      subst h2
      exact ⟨hv, by decide⟩
    · intro m2 iss h
      rw [heq] at h
      exact RobustResult.noConfusion h
    · intro h2
      rw [heq] at h2
      exact RobustResult.noConfusion h2
  · refine ⟨?_, ?_, ?_, ?_⟩
    · intro m2 h
      rw [heq] at h
      exact RobustResult.noConfusion h
    · intro m2 src h
      rw [heq] at h
      exact RobustResult.noConfusion h
    · intro m2 iss h
      rw [heq] at h
      injection h with h1
      injection h1 with h2 h3
      subst h2
      exact ⟨hrf, hv, hne⟩
    · intro h2
      rw [heq] at h2
      injection h2 with h1
      exact RobustError.noConfusion h1
  · refine ⟨?_, ?_, ?_, ?_⟩
    · intro m2 h
      rw [heq] at h
      exact RobustResult.noConfusion h
    · intro m2 src h
      rw [heq] at h
      exact RobustResult.noConfusion h
    · intro m2 iss h
      rw [heq] at h
      injection h with h1
      exact RobustError.noConfusion h1
    · intro h2
      exact hall

/-- Environment in which `repodata_record.json` exists and parses to
the empty dict, and no other metadata source is available. -/
def emptyRepodataEnv : RobustEnv where
  repodataFile := some (some emptyMeta)
  packageFilePresent := false
  extracted := none
  fallbackUrl := none
  curlOk := false
  urlFn := none

/-- C8 counterexample: an invalid metadata dict (the empty dict) is
read from `repodata_record.json`, yet `get_robust_metadata` raises
MetadataValidationError, not IncompleteMetadataError, because the
Python truthiness test `if incomplete_metadata:` is false for the
empty dict. -/
theorem get_robust_metadata_empty_dict_counterexample :
    emptyRepodataEnv.repodataFile = some (some emptyMeta) ∧
    (validate_metadata emptyMeta).1 = false ∧
    get_robust_metadata emptyRepodataEnv = .err .metadataValidation ∧
    get_robust_metadata emptyRepodataEnv ≠
      .err (.incompleteMetadata emptyMeta (validate_metadata emptyMeta).2) := by
  refine ⟨rfl, by decide, by decide, by decide⟩

/-- A fully valid repodata record, as read from a healthy package
cache entry. -/
def validRepodataMeta : MetaDict where
  name := some "ipykernel"
  version := some "6.30.1"
  channel := some "conda-forge"
  subdir := some "noarch"
  url := some "https://conda.example/noarch/ipykernel-6.30.1.conda"
  depends := some ["python"]
  timestamp := some 1234
  sha256 := some "0abc"
  license := some "BSD-3-Clause"

/-- Environment whose `repodata_record.json` holds
`validRepodataMeta`. -/
def validRepodataEnv : RobustEnv where
  repodataFile := some (some validRepodataMeta)
  packageFilePresent := false
  extracted := none
  fallbackUrl := some "https://conda.example/noarch/ipykernel-6.30.1.conda"
  curlOk := true
  urlFn := some "ipykernel-6.30.1.conda"

/-- Witness for C8 at a concrete environment. -/
theorem get_robust_metadata_no_url_success_witness :
    (validate_metadata validRepodataMeta).1 = true ∧
    MetaSource.fromRepodata ≠ MetaSource.fromUrl :=
  (get_robust_metadata_no_url_success validRepodataEnv).2.1
    validRepodataMeta .fromRepodata (by decide)

/-- C9 counterexample: with a non-None but empty comment, all the
conditions the claim names hold (comment is non-None, the list is
neither [] nor ["PREVIOUS"], and "comment" is not in the list), yet
the list is not mutated, because the Python guard `if comment` is
falsy for the empty string. -/
theorem make_metadata_header_empty_comment_counterexample :
    (some "" : Option String) ≠ none ∧
    DEFAULT_METADATA_TO_INCLUDE ≠ [] ∧
    DEFAULT_METADATA_TO_INCLUDE ≠ ["PREVIOUS"] ∧
    "comment" ∉ DEFAULT_METADATA_TO_INCLUDE ∧
    make_metadata_header_list_after DEFAULT_METADATA_TO_INCLUDE (some "")
      = DEFAULT_METADATA_TO_INCLUDE := by
  refine ⟨by decide, by decide, by decide, by decide, by decide⟩

/-- C9 (amended): for every call where comment is non-None and
non-empty, the list is neither [] nor ["PREVIOUS"], and "comment" is
not already in the list, `make_metadata_header` appends "comment" to
the list object in place; in particular a call using the module-level
default (whose value ["previous"] fails the early-return check for
["PREVIOUS"]) leaves the shared default as ["previous", "comment"],
observed by subsequent calls. -/
theorem make_metadata_header_mutates_list (lst : List String) (s : String)
    (hs : s ≠ "") (h0 : lst ≠ []) (h1 : lst ≠ ["PREVIOUS"])
    (h2 : "comment" ∉ lst) :
    make_metadata_header_list_after lst (some s) = lst ++ ["comment"] ∧
    make_metadata_header_list_after DEFAULT_METADATA_TO_INCLUDE (some s)
      = ["previous", "comment"] ∧
    DEFAULT_METADATA_TO_INCLUDE ≠ ["PREVIOUS"] := by
  refine ⟨?_, ?_, by decide⟩
  · unfold make_metadata_header_list_after
    rw [if_neg h0, if_neg h1, if_pos]
    exact ⟨by simp [commentTruthy, hs], h2⟩
  · unfold make_metadata_header_list_after DEFAULT_METADATA_TO_INCLUDE
    rw [if_neg (by decide), if_neg (by decide), if_pos]
    · rfl
    · exact ⟨by simp [commentTruthy, hs], by decide⟩

/-- Witness for C9 at a concrete list and comment. -/
theorem make_metadata_header_mutates_list_witness :
    make_metadata_header_list_after ["about"] (some "a note")
      = ["about"] ++ ["comment"] ∧
    make_metadata_header_list_after DEFAULT_METADATA_TO_INCLUDE (some "a note")
      = ["previous", "comment"] ∧
    DEFAULT_METADATA_TO_INCLUDE ≠ ["PREVIOUS"] :=
  make_metadata_header_mutates_list ["about"] "a note"
    (by decide) (by decide) (by decide) (by decide)

/-- C10: the result of `_convert_index_to_repodata` always contains a
sha256 key, defaulting to the empty string when the index dict has
none, so the missing_sha256 issue is never reported for converted
metadata; and `validate_metadata` tests only presence of the sha256
key, so any present sha256 value, the empty string included, passes
that check. -/
theorem convert_index_sha256_never_missing (d : MetaDict) :
    (_convert_index_to_repodata d).sha256 = some (d.sha256.getD "") ∧
    "missing_sha256" ∉ (validate_metadata (_convert_index_to_repodata d)).2 ∧
    (∀ m : MetaDict, m.sha256 ≠ none →
      "missing_sha256" ∉ (validate_metadata m).2) := by
  have noMem : ∀ (c : Prop) (inst : Decidable c) (s : String),
      ("missing_sha256" ∈ if c then [s] else []) → s = "missing_sha256" := by
    intro c inst s h
    split at h
    · simp at h
      exact h.symm
    · simp at h
  have key : ∀ m : MetaDict, m.sha256 ≠ none →
      "missing_sha256" ∉ (validate_metadata m).2 := by
    intro m hm
    unfold validate_metadata
    dsimp only
    simp only [List.mem_append]
    intro hmem
    rcases hmem with ((((((((h | h) | h) | h) | h) | h) | h) | h) | h)
    · exact absurd (noMem _ _ _ h) (by decide)
    · exact absurd (noMem _ _ _ h) (by decide)
    · rw [if_neg hm] at h
      simp at h
    · exact absurd (noMem _ _ _ h) (by decide)
    · exact absurd (noMem _ _ _ h) (by decide)
    · exact absurd (noMem _ _ _ h) (by decide)
    · exact absurd (noMem _ _ _ h) (by decide)
    · exact absurd (noMem _ _ _ h) (by decide)
    · exact absurd (noMem _ _ _ h) (by decide)
  refine ⟨rfl, key _ (by simp [_convert_index_to_repodata]), key⟩

/-- Witness for C10 at a concrete dict with an empty-string sha256. -/
theorem convert_index_sha256_never_missing_witness :
    ({ emptyMeta with sha256 := some "" } : MetaDict).sha256 ≠ none →
    "missing_sha256" ∉
      (validate_metadata { emptyMeta with sha256 := some "" }).2 :=
  fun h => (convert_index_sha256_never_missing emptyMeta).2.2 _ h

/-! ## The category-propagation and reconciliation engine

The implementation lives in the lockfile subpackage of conda-lock,
which is not part of the sources at hand; the definitions below are
modelled from the specification (sections 3, 4.1-4.3 and 7), which
describes the data model, the per-root breadth-first propagation with a
visited set, the merge-then-repropagate reconciler, and the error
taxonomy.  Reachability is computed by iterating the one-step edge
expansion to its fixpoint, a functional rendering of the traversal with
a visited set prescribed by section 4.2 (order-insensitive and safe on
accidental cycles).
-/

/-- Modelled from the spec: a RootRequest (section 3) carries a name
and a set of categories.  The optional version constraint and manager
tag play no role in propagation and are omitted. -/
structure RootRequest where
  name : String
  categories : Finset String
deriving DecidableEq

/-- Modelled from the spec: a PlannedPackage (section 3): solver output
with identity fields and dependency-edge targets given by name. -/
structure PlannedPackage where
  name : String
  version : String
  build : String
  hash : String
  sourceUrl : String
  depends : List String
deriving DecidableEq

/-- Modelled from the spec: a LockedDependency (section 3): the fields
of a PlannedPackage plus a set of categories. -/
structure LockedDependency where
  name : String
  version : String
  build : String
  hash : String
  sourceUrl : String
  depends : List String
  categories : Finset String
deriving DecidableEq

/-- Attach a category set to a planned package. -/
def PlannedPackage.toLocked (p : PlannedPackage) (cats : Finset String) :
    LockedDependency :=
  ⟨p.name, p.version, p.build, p.hash, p.sourceUrl, p.depends, cats⟩

/-- Forget the category set of a locked dependency. -/
def LockedDependency.toPlanned (ld : LockedDependency) : PlannedPackage :=
  ⟨ld.name, ld.version, ld.build, ld.hash, ld.sourceUrl, ld.depends⟩

/-- Modelled from the spec: a DependencyGraph for one platform
(section 3) is the list of its planned packages; edges are the
`depends` name references. -/
abbrev Graph := List PlannedPackage

/-- Name lookup in a graph (the spec requires packages to be found by
name; the first match is taken). -/
def lookupPkg (g : Graph) (n : String) : Option PlannedPackage :=
  g.find? (fun p => p.name == n)

/-- The outgoing dependency-edge targets of the node named `n`. -/
def depTargets (g : Graph) (n : String) : List String :=
  match lookupPkg g n with
  | some p => p.depends
  | none => []

/-- One requires-edge from `a` to `b`. -/
def Edge (g : Graph) (a b : String) : Prop := b ∈ depTargets g a

/-- Reachability over outgoing requires-edges: the reflexive-transitive
closure of `Edge`. -/
def Reach (g : Graph) (a b : String) : Prop :=
  Relation.ReflTransGen (Edge g) a b

/-- One round of the traversal: every member keeps itself and adds its
direct dependency targets. -/
def stepSet (g : Graph) (s : Finset String) : Finset String :=
  s ∪ s.biUnion (fun n => (depTargets g n).toFinset)

/-- All names mentioned by the graph: package names and edge targets. -/
def graphUniverse (g : Graph) : Finset String :=
  (g.map (fun p => p.name)).toFinset ∪
    ((g.map (fun p => p.depends)).flatten).toFinset

/-- Enough rounds to saturate any traversal of `g`. -/
def reachFuel (g : Graph) : Nat := (graphUniverse g).card + 1

/-- The visited set of the breadth-first traversal started at `a`:
the saturation of the one-step expansion. -/
def reachSet (g : Graph) (a : String) : Finset String :=
  (stepSet g)^[reachFuel g] {a}

lemma subset_stepSet (g : Graph) (s : Finset String) : s ⊆ stepSet g s :=
  Finset.subset_union_left

lemma stepSet_mono (g : Graph) {s t : Finset String} (h : s ⊆ t) :
    stepSet g s ⊆ stepSet g t :=
  Finset.union_subset_union h (Finset.biUnion_subset_biUnion_of_subset_left _ h)

lemma mem_stepSet_of_edge (g : Graph) {a b : String} {s : Finset String}
    (ha : a ∈ s) (hab : Edge g a b) : b ∈ stepSet g s :=
  Finset.mem_union_right _
    (Finset.mem_biUnion.mpr ⟨a, ha, List.mem_toFinset.mpr hab⟩)

lemma iterate_stepSet_succ_subset (g : Graph) (n : Nat) (s : Finset String) :
    (stepSet g)^[n] s ⊆ (stepSet g)^[n + 1] s := by
  rw [Function.iterate_succ_apply']
  exact subset_stepSet g _

lemma iterate_stepSet_mono (g : Graph) (s : Finset String) {m n : Nat}
    (h : m ≤ n) : (stepSet g)^[m] s ⊆ (stepSet g)^[n] s := by
  induction n with
  | zero =>
    cases Nat.le_zero.mp h
    exact subset_rfl
  | succ k ih =>
    rcases Nat.lt_or_ge m (k + 1) with hm | hm
    · exact (ih (Nat.lt_succ_iff.mp hm)).trans (iterate_stepSet_succ_subset g k s)
    · cases Nat.le_antisymm h hm
      exact subset_rfl

/-- Soundness of the traversal: everything in an iterate is reachable
from some start node. -/
lemma reach_of_mem_iterate (g : Graph) :
    ∀ (n : Nat) (s : Finset String) (b : String),
      b ∈ (stepSet g)^[n] s → ∃ a ∈ s, Reach g a b := by
  intro n
  induction n with
  | zero => exact fun s b hb => ⟨b, hb, Relation.ReflTransGen.refl⟩
  | succ k ih =>
    intro s b hb
    rw [Function.iterate_succ_apply'] at hb
    rcases Finset.mem_union.mp hb with hb | hb
    · exact ih s b hb
    · obtain ⟨a, ha, hmem⟩ := Finset.mem_biUnion.mp hb
      obtain ⟨r, hr, hra⟩ := ih s a ha
      exact ⟨r, hr, hra.tail (List.mem_toFinset.mp hmem)⟩

lemma mem_graphUniverse_of_target (g : Graph) {n b : String}
    (hb : b ∈ depTargets g n) : b ∈ graphUniverse g := by
  unfold depTargets at hb
  cases hfind : lookupPkg g n with
  | none => rw [hfind] at hb; cases hb
  | some p =>
    rw [hfind] at hb
    have hp : p ∈ g := List.mem_of_find?_eq_some hfind
    refine Finset.mem_union_right _ (List.mem_toFinset.mpr ?_)
    rw [List.mem_flatten]
    exact ⟨p.depends, List.mem_map.mpr ⟨p, hp, rfl⟩, hb⟩

lemma stepSet_subset_of (g : Graph) {s t : Finset String}
    (hs : s ⊆ t) (hu : graphUniverse g ⊆ t) : stepSet g s ⊆ t := by
  refine Finset.union_subset hs (Finset.biUnion_subset.mpr fun n _ => ?_)
  intro b hb
  exact hu (mem_graphUniverse_of_target g (List.mem_toFinset.mp hb))

lemma iterate_stepSet_subset_universe (g : Graph) (a : String) (n : Nat) :
    (stepSet g)^[n] {a} ⊆ insert a (graphUniverse g) := by
  induction n with
  | zero => simp
  | succ k ih =>
    rw [Function.iterate_succ_apply']
    exact stepSet_subset_of g ih (Finset.subset_insert _ _)

lemma iterate_stepSet_card_growth (g : Graph) (a : String) :
    ∀ n : Nat, (∀ k < n, (stepSet g)^[k + 1] {a} ≠ (stepSet g)^[k] {a}) →
      n + 1 ≤ ((stepSet g)^[n] {a}).card := by
  intro n
  induction n with
  | zero => simp
  | succ k ih =>
    intro hne
    have h1 : k + 1 ≤ ((stepSet g)^[k] {a}).card :=
      ih fun j hj => hne j (Nat.lt_succ_of_lt hj)
    have hss : (stepSet g)^[k] {a} ⊂ (stepSet g)^[k + 1] {a} :=
      lt_of_le_of_ne (iterate_stepSet_succ_subset g k {a})
        (fun h => hne k (Nat.lt_succ_self k) h.symm)
    exact Nat.succ_le_of_lt (Nat.lt_of_le_of_lt h1 (Finset.card_lt_card hss))

lemma exists_iterate_stepSet_fixed (g : Graph) (a : String) :
    ∃ k < reachFuel g, stepSet g ((stepSet g)^[k] {a}) = (stepSet g)^[k] {a} := by
  by_contra hcon
  push_neg at hcon
  have hne : ∀ k < reachFuel g,
      (stepSet g)^[k + 1] {a} ≠ (stepSet g)^[k] {a} := by
    intro k hk
    rw [Function.iterate_succ_apply']
    exact hcon k hk
  have hK : reachFuel g + 1 ≤ ((stepSet g)^[reachFuel g] {a}).card := by
    refine iterate_stepSet_card_growth g a (reachFuel g) fun k hk => hne k hk
  have hbound : ((stepSet g)^[reachFuel g] {a}).card ≤
      (insert a (graphUniverse g)).card :=
    Finset.card_le_card (iterate_stepSet_subset_universe g a (reachFuel g))
  have hcard : (insert a (graphUniverse g)).card ≤ reachFuel g := by
    unfold reachFuel
    have := Finset.card_insert_le a (graphUniverse g)
    omega
  omega

/-- Completeness of the fuel bound: no iterate ever exceeds the
saturated set. -/
lemma iterate_stepSet_subset_reachSet (g : Graph) (a : String) (m : Nat) :
    (stepSet g)^[m] {a} ⊆ reachSet g a := by
  obtain ⟨k, hk, hfix⟩ := exists_iterate_stepSet_fixed g a
  rcases Nat.le_total m (reachFuel g) with hm | hm
  · exact iterate_stepSet_mono g {a} hm
  · have hfixed : ∀ j : Nat, (stepSet g)^[k + j] {a} = (stepSet g)^[k] {a} := by
      intro j
      rw [Nat.add_comm, Function.iterate_add_apply]
      exact Function.iterate_fixed hfix j
    have hm2 : (stepSet g)^[m] {a} = (stepSet g)^[k] {a} := by
      have : k + (m - k) = m := by omega
      rw [← this]
      exact hfixed (m - k)
    rw [hm2]
    exact iterate_stepSet_mono g {a} (Nat.le_of_lt hk)

/-- The saturated traversal computes exactly reachability. -/
lemma mem_reachSet_iff (g : Graph) (a b : String) :
    b ∈ reachSet g a ↔ Reach g a b := by
  constructor
  · intro hb
    obtain ⟨x, hx, hxb⟩ := reach_of_mem_iterate g (reachFuel g) {a} b hb
    rw [Finset.mem_singleton] at hx
    rw [hx] at hxb
    exact hxb
  · intro hr
    induction hr with
    | refl =>
      refine iterate_stepSet_subset_reachSet g a 0 ?_
      simp
    | tail hxy hedge ih =>
      have hstep : _ ∈ stepSet g (reachSet g a) :=
        mem_stepSet_of_edge g ih hedge
      have : stepSet g (reachSet g a) = (stepSet g)^[reachFuel g + 1] {a} := by
        rw [Function.iterate_succ_apply']
        rfl
      rw [this] at hstep
      exact iterate_stepSet_subset_reachSet g a (reachFuel g + 1) hstep

lemma self_mem_reachSet (g : Graph) (a : String) : a ∈ reachSet g a :=
  (mem_reachSet_iff g a a).mpr Relation.ReflTransGen.refl

lemma reachSet_closed (g : Graph) {a b c : String}
    (hb : b ∈ reachSet g a) (hbc : Edge g b c) : c ∈ reachSet g a :=
  (mem_reachSet_iff g a c).mpr (((mem_reachSet_iff g a b).mp hb).tail hbc)

/-- Modelled from the spec: fatal propagation errors (section 7):
a RootRequest absent from the solved graph, or a dependency edge whose
target name resolves to no package. -/
inductive PropError where
  | unresolvedRoot (rootName : String)
  | danglingEdge (source target : String)
deriving DecidableEq

/-- The first dangling edge of the graph, if any: a package together
with a dependency target that resolves to no package (section 4.1
makes unresolved edge targets a reportable inconsistency). -/
def findDanglingEdge (g : Graph) : Option (String × String) :=
  g.findSome? (fun p =>
    (p.depends.find? (fun t => (lookupPkg g t).isNone)).map
      (fun t => (p.name, t)))

/-- Modelled from the spec: processing one RootRequest (section 4.2):
every node visited by the traversal from the root has the root's
category set unioned into its own. -/
def addRoot (g : Graph) (r : RootRequest) (assign : String → Finset String) :
    String → Finset String :=
  fun n => if n ∈ reachSet g r.name then assign n ∪ r.categories else assign n

/-- Modelled from the spec: the category assignment after processing
every RootRequest in order (section 4.2). -/
def propagateAssign (g : Graph) (roots : List RootRequest) :
    String → Finset String :=
  roots.foldl (fun assign r => addRoot g r assign) (fun _ => ∅)

/-- Whether some root's traversal visits the node `n`. -/
def visitedFromRoots (g : Graph) (roots : List RootRequest) (n : String) : Bool :=
  roots.any (fun r => n ∈ reachSet g r.name)

/-- Modelled from the spec: the Category Propagator (section 4.2 with
the error taxonomy of section 7).  A dangling edge or an unresolved
root aborts the run; otherwise every package visited from some root is
emitted with its accumulated categories, and nodes never visited are
dropped entirely. -/
def propagate (roots : List RootRequest) (g : Graph) :
    Except PropError (List LockedDependency) :=
  match findDanglingEdge g with
  | some st => .error (.danglingEdge st.1 st.2)
  | none =>
    match roots.find? (fun r => (lookupPkg g r.name).isNone) with
    | some r => .error (.unresolvedRoot r.name)
    | none =>
      .ok (g.filterMap (fun p =>
        if visitedFromRoots g roots p.name then
          some (p.toLocked (propagateAssign g roots p.name))
        else none))

/-- Modelled from the spec: step 1 and 2 of the Reconciler
(section 4.3): previously locked packages whose name is in the
updated-package set are discarded; the remaining ones are carried over
unchanged and take precedence over freshly solved packages of the same
name; freshly solved packages fill in the rest. -/
def mergedGraph (previous : List LockedDependency)
    (fresh : List PlannedPackage) (updated : List String) : Graph :=
  let carried := (previous.filter
    (fun ld => !(updated.contains ld.name))).map LockedDependency.toPlanned
  carried ++ fresh.filter
    (fun p => !(carried.map (fun q => q.name)).contains p.name)

/-- Modelled from the spec: the Reconciler (section 4.3): merge the
previous lock state with the freshly solved packages, then re-run the
Category Propagator over the merged graph with the current full
RootRequest set, pruning everything unreachable. -/
def reconcile (roots : List RootRequest) (previous : List LockedDependency)
    (fresh : List PlannedPackage) (updated : List String) :
    Except PropError (List LockedDependency) :=
  propagate roots (mergedGraph previous fresh updated)

/-- Membership characterization of the propagated assignment: a
category is assigned to `n` exactly when some root that reaches `n`
carries it. -/
lemma mem_propagateAssign (g : Graph) (roots : List RootRequest)
    (n : String) (c : String) :
    c ∈ propagateAssign g roots n ↔
      ∃ r ∈ roots, n ∈ reachSet g r.name ∧ c ∈ r.categories := by
  have general : ∀ (rs : List RootRequest) (assign : String → Finset String),
      c ∈ (rs.foldl (fun a r => addRoot g r a) assign) n ↔
        c ∈ assign n ∨ ∃ r ∈ rs, n ∈ reachSet g r.name ∧ c ∈ r.categories := by
    intro rs
    induction rs with
    | nil => simp
    | cons r rs ih =>
      intro assign
      rw [List.foldl_cons, ih]
      unfold addRoot
      by_cases hn : n ∈ reachSet g r.name
      · rw [if_pos hn]
        simp only [Finset.mem_union, List.mem_cons]
        constructor
        · rintro ((h | h) | ⟨r2, hr2, h2⟩)
          · exact .inl h
          · exact .inr ⟨r, .inl rfl, hn, h⟩
          · exact .inr ⟨r2, .inr hr2, h2⟩
        · rintro (h | ⟨r2, hr2 | hr2, h2, h3⟩)
          · exact .inl (.inl h)
          · cases hr2
            exact .inl (.inr h3)
          · exact .inr ⟨r2, hr2, h2, h3⟩
      · rw [if_neg hn]
        simp only [List.mem_cons]
        constructor
        · rintro (h | ⟨r2, hr2, h2⟩)
          · exact .inl h
          · exact .inr ⟨r2, .inr hr2, h2⟩
        · rintro (h | ⟨r2, hr2 | hr2, h2, h3⟩)
          · exact .inl h
          · cases hr2
            exact absurd h2 hn
          · exact .inr ⟨r2, hr2, h2, h3⟩
  rw [propagateAssign, general]
  simp

/-- Inversion of a successful propagation: no dangling edge, no
unresolved root, and the output is the visited-filtered graph. -/
lemma propagate_ok_inv (roots : List RootRequest) (g : Graph)
    (out : List LockedDependency) (h : propagate roots g = .ok out) :
    findDanglingEdge g = none ∧
    roots.find? (fun r => (lookupPkg g r.name).isNone) = none ∧
    out = g.filterMap (fun p =>
      if visitedFromRoots g roots p.name then
        some (p.toLocked (propagateAssign g roots p.name))
      else none) := by
  unfold propagate at h
  cases hd : findDanglingEdge g with
  | some st => rw [hd] at h; cases h
  | none =>
    rw [hd] at h
    cases hf : roots.find? (fun r => (lookupPkg g r.name).isNone) with
    | some r => rw [hf] at h; cases h
    | none =>
      rw [hf] at h
      cases h
      exact ⟨rfl, rfl, rfl⟩

/-- C2: every package reachable from a root is emitted by the
Category Propagator with a categories set containing that root's
categories, and its categories are exactly the union over all roots
that reach it. -/
theorem propagation_completeness (g : Graph) (roots : List RootRequest)
    (out : List LockedDependency) (r : RootRequest) (p : PlannedPackage)
    (hok : propagate roots g = .ok out) (hr : r ∈ roots) (hp : p ∈ g)
    (hreach : Reach g r.name p.name) :
    ∃ ld ∈ out, ld.name = p.name ∧ r.categories ⊆ ld.categories ∧
      ∀ c, c ∈ ld.categories ↔
        ∃ r2 ∈ roots, Reach g r2.name p.name ∧ c ∈ r2.categories := by
  obtain ⟨hd, hf, hout⟩ := propagate_ok_inv roots g out hok
  have hmem : p.name ∈ reachSet g r.name := (mem_reachSet_iff g _ _).mpr hreach
  have hvis : visitedFromRoots g roots p.name = true :=
    List.any_eq_true.mpr ⟨r, hr, by simpa using hmem⟩
  refine ⟨p.toLocked (propagateAssign g roots p.name), ?_, rfl, ?_, ?_⟩
  · rw [hout]
    exact List.mem_filterMap.mpr ⟨p, hp, by rw [if_pos hvis]⟩
  · intro c hc
    exact (mem_propagateAssign g roots p.name c).mpr ⟨r, hr, hmem, hc⟩
  · intro c
    rw [PlannedPackage.toLocked]
    rw [mem_propagateAssign]
    constructor
    · rintro ⟨r2, hr2, h2, h3⟩
      exact ⟨r2, hr2, (mem_reachSet_iff g _ _).mp h2, h3⟩
    · rintro ⟨r2, hr2, h2, h3⟩
      exact ⟨r2, hr2, (mem_reachSet_iff g _ _).mpr h2, h3⟩

/-- C6: a dangling dependency edge anywhere in the graph makes
propagation fail with a DanglingEdgeError whose reported target is
indeed unresolved; the edge is never skipped. -/
theorem dangling_edge_is_fatal (roots : List RootRequest) (g : Graph)
    (p : PlannedPackage) (t : String) (hp : p ∈ g) (ht : t ∈ p.depends)
    (hnone : lookupPkg g t = none) :
    ∃ src tgt, propagate roots g = .error (.danglingEdge src tgt) ∧
      lookupPkg g tgt = none := by
  cases hd : findDanglingEdge g with
  | none =>
    exfalso
    rw [findDanglingEdge, List.findSome?_eq_none_iff] at hd
    have := hd p hp
    rw [Option.map_eq_none'] at this
    rw [List.find?_eq_none] at this
    exact this t ht (by simp [hnone])
  | some st =>
    refine ⟨st.1, st.2, by rw [propagate, hd], ?_⟩
    unfold findDanglingEdge at hd
    obtain ⟨q, hq, hmap⟩ := List.exists_of_findSome?_eq_some hd
    rw [Option.map_eq_some'] at hmap
    obtain ⟨u, hfind, hpair⟩ := hmap
    have := List.find?_some hfind
    simp only [Option.isNone_iff_eq_none, decide_eq_true_eq] at this
    have hu : st.2 = u := by rw [← hpair]
    rw [hu]
    exact this

/-- Permutation-invariance of the visited test. -/
lemma visitedFromRoots_perm (g : Graph) {roots1 roots2 : List RootRequest}
    (hperm : roots1.Perm roots2) (n : String) :
    visitedFromRoots g roots1 n = visitedFromRoots g roots2 n := by
  unfold visitedFromRoots
  have hiff : (roots1.any (fun r => n ∈ reachSet g r.name) = true) ↔
      (roots2.any (fun r => n ∈ reachSet g r.name) = true) := by
    rw [List.any_eq_true, List.any_eq_true]
    constructor
    · rintro ⟨r, hr, h⟩
      exact ⟨r, hperm.mem_iff.mp hr, h⟩
    · rintro ⟨r, hr, h⟩
      exact ⟨r, hperm.mem_iff.mpr hr, h⟩
  cases h1 : roots1.any (fun r => n ∈ reachSet g r.name) <;>
    cases h2 : roots2.any (fun r => n ∈ reachSet g r.name) <;>
    simp_all

/-- C7: two runs of the Category Propagator whose root-request lists
are permutations of one another assign identical category sets to
every package and produce identical successful outputs. -/
theorem propagation_order_independence (g : Graph)
    (roots1 roots2 : List RootRequest) (hperm : roots1.Perm roots2) :
    (∀ n, propagateAssign g roots1 n = propagateAssign g roots2 n) ∧
    (∀ out, propagate roots1 g = .ok out → propagate roots2 g = .ok out) := by
  have hassign : ∀ n, propagateAssign g roots1 n = propagateAssign g roots2 n := by
    intro n
    ext c
    rw [mem_propagateAssign, mem_propagateAssign]
    constructor
    · rintro ⟨r, hr, h1, h2⟩
      exact ⟨r, hperm.mem_iff.mp hr, h1, h2⟩
    · rintro ⟨r, hr, h1, h2⟩
      exact ⟨r, hperm.mem_iff.mpr hr, h1, h2⟩
  refine ⟨hassign, ?_⟩
  intro out hok
  obtain ⟨hd, hf, hout⟩ := propagate_ok_inv roots1 g out hok
  unfold propagate
  rw [hd]
  have hf2 : roots2.find? (fun r => (lookupPkg g r.name).isNone) = none := by
    rw [List.find?_eq_none] at hf ⊢
    intro r hr
    exact hf r (hperm.mem_iff.mpr hr)
  rw [hf2]
  rw [hout]
  have : (fun (p : PlannedPackage) =>
      if visitedFromRoots g roots1 p.name then
        some (p.toLocked (propagateAssign g roots1 p.name))
      else none) =
      (fun (p : PlannedPackage) =>
      if visitedFromRoots g roots2 p.name then
        some (p.toLocked (propagateAssign g roots2 p.name))
      else none) := by
    funext p
    rw [visitedFromRoots_perm g hperm, hassign]
  rw [this]

/-- C3: every package in the Reconciler's output is reachable from a
current RootRequest in the merged graph, and a package of the merge
reachable from no root leaves no trace in the output. -/
theorem reconciler_no_orphans (roots : List RootRequest)
    (previous : List LockedDependency) (fresh : List PlannedPackage)
    (updated : List String) (out : List LockedDependency)
    (hok : reconcile roots previous fresh updated = .ok out) :
    (∀ ld ∈ out, ∃ r ∈ roots,
      Reach (mergedGraph previous fresh updated) r.name ld.name) ∧
    (∀ p ∈ mergedGraph previous fresh updated,
      (∀ r ∈ roots, ¬ Reach (mergedGraph previous fresh updated) r.name p.name) →
      ∀ ld ∈ out, ld.name ≠ p.name) := by
  obtain ⟨hd, hf, hout⟩ :=
    propagate_ok_inv roots (mergedGraph previous fresh updated) out hok
  have hname : ∀ ld ∈ out, ∃ r ∈ roots,
      ld.name ∈ reachSet (mergedGraph previous fresh updated) r.name := by
    intro ld hld
    rw [hout] at hld
    obtain ⟨p, hp, hsome⟩ := List.mem_filterMap.mp hld
    by_cases hvis : visitedFromRoots (mergedGraph previous fresh updated)
        roots p.name = true
    · rw [if_pos hvis] at hsome
      obtain ⟨r, hr, hmem⟩ := List.any_eq_true.mp hvis
      cases hsome
      exact ⟨r, hr, by simpa using hmem⟩
    · rw [if_neg hvis] at hsome
      cases hsome
  constructor
  · intro ld hld
    obtain ⟨r, hr, hmem⟩ := hname ld hld
    exact ⟨r, hr, (mem_reachSet_iff _ _ _).mp hmem⟩
  · intro p hp hunreach ld hld heq
    obtain ⟨r, hr, hmem⟩ := hname ld hld
    rw [heq] at hmem
    exact hunreach r hr ((mem_reachSet_iff _ _ _).mp hmem)

/-- Decidable equality of propagation results, used to evaluate the
model on concrete inputs. -/
instance : DecidableEq (Except PropError (List LockedDependency)) :=
  fun a b =>
    match a, b with
    | .ok x, .ok y =>
      if h : x = y then .isTrue (by rw [h])
      else .isFalse (fun hh => by cases hh; exact h rfl)
    | .error e, .error f =>
      if h : e = f then .isTrue (by rw [h])
      else .isFalse (fun hh => by cases hh; exact h rfl)
    | .ok _, .error _ => .isFalse (fun hh => by cases hh)
    | .error _, .ok _ => .isFalse (fun hh => by cases hh)

/-- A small concrete solved package. -/
def demoPkg (n : String) (deps : List String) : PlannedPackage :=
  ⟨n, "1.0", "0", "hash-" ++ n, "url-" ++ n, deps⟩

/-- Scenario 2 of section 8: roots A and D both depend on B. -/
def demoGraph : Graph := [demoPkg "A" ["B"], demoPkg "D" ["B"], demoPkg "B" []]

def rootA : RootRequest := ⟨"A", {"main"}⟩

def rootD : RootRequest := ⟨"D", {"dev"}⟩

def demoRoots : List RootRequest := [rootA, rootD]

def demoRootsRev : List RootRequest := [rootD, rootA]

/-- The propagated lock entries of the demo graph. -/
def demoOut : List LockedDependency :=
  [(demoPkg "A" ["B"]).toLocked {"main"},
   (demoPkg "D" ["B"]).toLocked {"dev"},
   (demoPkg "B" []).toLocked {"main", "dev"}]

/-- Witness for C2: in the two-root demo, B is emitted and its
categories are the union of the categories of the roots reaching
it. -/
theorem propagation_completeness_witness :
    ∃ ld ∈ demoOut, ld.name = (demoPkg "B" []).name ∧
      rootA.categories ⊆ ld.categories ∧
      ∀ c, c ∈ ld.categories ↔
        ∃ r2 ∈ demoRoots, Reach demoGraph r2.name (demoPkg "B" []).name ∧
          c ∈ r2.categories :=
  propagation_completeness demoGraph demoRoots demoOut rootA (demoPkg "B" [])
    (by decide) (by decide) (by decide)
    (Relation.ReflTransGen.single
      (show ("B" : String) ∈ depTargets demoGraph "A" by decide))

/-- Scenario 4 of section 8: B depends on Z, absent from the graph. -/
def danglingGraph : Graph := [demoPkg "B" ["Z"]]

def rootsB : List RootRequest := [⟨"B", {"main"}⟩]

/-- Witness for C6: propagation over the graph with the dangling edge
fails with a DanglingEdgeError naming an unresolved target. -/
theorem dangling_edge_is_fatal_witness :
    ∃ src tgt, propagate rootsB danglingGraph = .error (.danglingEdge src tgt) ∧
      lookupPkg danglingGraph tgt = none :=
  dangling_edge_is_fatal rootsB danglingGraph (demoPkg "B" ["Z"]) "Z"
    (by decide) (by decide) (by decide)

/-- Witness for C7: processing the demo roots in either order gives B
the same categories and the same overall output. -/
theorem propagation_order_independence_witness :
    propagateAssign demoGraph demoRoots "B" =
      propagateAssign demoGraph demoRootsRev "B" ∧
    propagate demoRootsRev demoGraph = .ok demoOut :=
  ⟨(propagation_order_independence demoGraph demoRoots demoRootsRev
      (by decide)).1 "B",
   (propagation_order_independence demoGraph demoRoots demoRootsRev
      (by decide)).2 demoOut (by decide)⟩

/-- A previously locked chain A depends on B depends on C, all in
category main. -/
def prevChain : List LockedDependency :=
  [⟨"A", "1.0", "0", "hash-A", "url-A", ["B"], {"main"}⟩,
   ⟨"B", "1.0", "0", "hash-B", "url-B", ["C"], {"main"}⟩,
   ⟨"C", "1.0", "0", "hash-C", "url-C", [], {"main"}⟩]

/-- Witness for C3: reconciling the chain with root A keeps exactly
the reachable entries, each reachable from a current root. -/
theorem reconciler_no_orphans_witness :
    (∀ ld ∈ prevChain, ∃ r ∈ [rootA],
      Reach (mergedGraph prevChain [] []) r.name ld.name) ∧
    (∀ p ∈ mergedGraph prevChain [] [],
      (∀ r ∈ [rootA], ¬ Reach (mergedGraph prevChain [] []) r.name p.name) →
      ∀ ld ∈ prevChain, ld.name ≠ p.name) :=
  reconciler_no_orphans [rootA] prevChain [] [] prevChain (by decide)

/-! ## The Version Converter (v2 to v1 and back)

Modelled from the spec (section 4.4); the per-category list
comprehension of `to_v1` is pinned by
`tests/test_regression.py` (test_empty_categories_in_v2_to_v1_conversion),
which asserts that a LockedDependency with an empty categories set
produces zero v1 entries.
-/

/-- The package fields shared by every row of one package: identity,
dependency map, source locator and hash. -/
structure PkgIdentity where
  name : String
  version : String
  manager : String
  platform : String
  dependencies : List (String × String)
  url : String
  hashMd5 : Option String
deriving DecidableEq

/-- The internal ("v2") model: one entry per package with a category
set. -/
structure LockedDependencyV2 where
  pkg : PkgIdentity
  categories : Finset String
deriving DecidableEq

/-- The legacy ("v1") model: one row per package per category. -/
structure LockedDependencyV1 where
  pkg : PkgIdentity
  category : String
deriving DecidableEq

/-- Modelled from the spec (section 4.4, forward conversion) and the
semantics pinned by the regression test: one legacy row per category in
the categories set, in sorted order; identical package fields on every
row.  An empty categories set therefore yields zero rows. -/
def LockedDependencyV2.to_v1 (ld : LockedDependencyV2) :
    List LockedDependencyV1 :=
  (ld.categories.sort (· ≤ ·)).map (fun c => ⟨ld.pkg, c⟩)

/-- Forward conversion of a whole package list. -/
def to_v1_list (entries : List LockedDependencyV2) : List LockedDependencyV1 :=
  (entries.map LockedDependencyV2.to_v1).flatten

/-- One step of the backward conversion: merge a legacy row into the
grouped entries, unioning into an existing entry of the same package
identity rather than creating a duplicate. -/
def addV1Row (entries : List LockedDependencyV2) (row : LockedDependencyV1) :
    List LockedDependencyV2 :=
  if entries.any (fun e => e.pkg == row.pkg) then
    entries.map (fun e =>
      if e.pkg == row.pkg then ⟨e.pkg, insert row.category e.categories⟩
      else e)
  else entries ++ [⟨row.pkg, {row.category}⟩]

/-- Modelled from the spec (section 4.4, backward conversion): group
legacy rows by package identity and union their single-category values
into one categories set per package. -/
def from_v1 (rows : List LockedDependencyV1) : List LockedDependencyV2 :=
  rows.foldl addV1Row []

/-- The set of (package, category) pairs carried by a legacy row
list. -/
def pairsV1 (rows : List LockedDependencyV1) : Finset (PkgIdentity × String) :=
  (rows.map (fun r => (r.pkg, r.category))).toFinset

/-- The set of (package, category) pairs carried by an internal entry
list. -/
def pairsV2 (entries : List LockedDependencyV2) :
    Finset (PkgIdentity × String) :=
  entries.foldr
    (fun e acc => e.categories.image (fun c => (e.pkg, c)) ∪ acc) ∅

/-- The test's concrete package with an empty categories set
(`tests/test_regression.py`, test_empty_categories_in_v2_to_v1_conversion). -/
def testPackage : LockedDependencyV2 where
  pkg := { name := "test-package"
           version := "1.0.0"
           manager := "conda"
           platform := "linux-64"
           dependencies := []
           url := "https://example.com/test-package-1.0.0.conda"
           hashMd5 := some "d41d8cd98f00b204e9800998ecf8427e" }
  categories := ∅

/-- C1: evaluating the forward conversion at the regression test's
package: an empty categories set yields zero legacy rows, silently
dropping the package from the legacy view instead of raising an
integrity error; a two-category set yields exactly one row per
category. -/
theorem to_v1_empty_categories_drops_package :
    testPackage.to_v1 = [] ∧
    testPackage.to_v1.length = 0 ∧
    ({ pkg := testPackage.pkg, categories := {"main", "dev"} } :
      LockedDependencyV2).to_v1.length = 2 := by
  have h1 : testPackage.to_v1 = [] := by
    simp [LockedDependencyV2.to_v1, testPackage]
  refine ⟨h1, by rw [h1]; rfl, ?_⟩
  rw [LockedDependencyV2.to_v1, List.length_map, Finset.length_sort]
  decide

lemma mem_pairsV2 (entries : List LockedDependencyV2)
    (x : PkgIdentity × String) :
    x ∈ pairsV2 entries ↔
      ∃ e ∈ entries, x.1 = e.pkg ∧ x.2 ∈ e.categories := by
  rcases x with ⟨a, b⟩
  induction entries with
  | nil => simp [pairsV2]
  | cons e es ih =>
    rw [pairsV2, List.foldr_cons]
    rw [Finset.mem_union]
    constructor
    · rintro (h | h)
      · obtain ⟨c, hc, hpair⟩ := Finset.mem_image.mp h
        cases hpair
        exact ⟨e, List.mem_cons_self e es, rfl, hc⟩
      · obtain ⟨e2, he2, h1, h2⟩ := ih.mp h
        exact ⟨e2, List.mem_cons_of_mem e he2, h1, h2⟩
    · rintro ⟨e2, he2, h1, h2⟩
      rcases List.mem_cons.mp he2 with he2 | he2
      · subst he2
        subst h1
        exact .inl (Finset.mem_image.mpr ⟨b, h2, rfl⟩)
      · exact .inr (ih.mpr ⟨e2, he2, h1, h2⟩)

lemma mem_pairsV1 (rows : List LockedDependencyV1)
    (x : PkgIdentity × String) :
    x ∈ pairsV1 rows ↔ ∃ r ∈ rows, x.1 = r.pkg ∧ x.2 = r.category := by
  rcases x with ⟨a, b⟩
  rw [pairsV1, List.mem_toFinset, List.mem_map]
  constructor
  · rintro ⟨r, hr, hpair⟩
    cases hpair
    exact ⟨r, hr, rfl, rfl⟩
  · rintro ⟨r, hr, h1, h2⟩
    subst h1
    subst h2
    exact ⟨r, hr, rfl⟩

/-- Forward conversion preserves the pair set. -/
lemma pairsV1_to_v1_list (entries : List LockedDependencyV2) :
    pairsV1 (to_v1_list entries) = pairsV2 entries := by
  ext x
  rw [mem_pairsV1, mem_pairsV2]
  constructor
  · rintro ⟨r, hr, h1, h2⟩
    rw [to_v1_list, List.mem_flatten] at hr
    obtain ⟨l, hl, hrl⟩ := hr
    obtain ⟨e, he, hle⟩ := List.mem_map.mp hl
    subst hle
    rw [LockedDependencyV2.to_v1, List.mem_map] at hrl
    obtain ⟨c, hc, hcr⟩ := hrl
    rw [Finset.mem_sort] at hc
    subst hcr
    refine ⟨e, he, h1, ?_⟩
    rw [show x.2 = c from h2]
    exact hc
  · rintro ⟨e, he, h1, h2⟩
    refine ⟨⟨e.pkg, x.2⟩, ?_, h1, rfl⟩
    rw [to_v1_list, List.mem_flatten]
    refine ⟨e.to_v1, List.mem_map.mpr ⟨e, he, rfl⟩, ?_⟩
    rw [LockedDependencyV2.to_v1, List.mem_map]
    exact ⟨x.2, (Finset.mem_sort _).mpr h2, rfl⟩

/-- Merging one legacy row adds exactly its pair. -/
lemma mem_addV1Row (entries : List LockedDependencyV2)
    (row : LockedDependencyV1) (x : PkgIdentity × String) :
    x ∈ pairsV2 (addV1Row entries row) ↔
      x = (row.pkg, row.category) ∨ x ∈ pairsV2 entries := by
  rcases x with ⟨a, b⟩
  unfold addV1Row
  by_cases hany : entries.any (fun e => e.pkg == row.pkg) = true
  · rw [if_pos hany]
    obtain ⟨e0, he0, heq0⟩ := List.any_eq_true.mp hany
    rw [beq_iff_eq] at heq0
    rw [mem_pairsV2, mem_pairsV2]
    constructor
    · rintro ⟨e2, he2, h1, h2⟩
      obtain ⟨e, he, hfe⟩ := List.mem_map.mp he2
      by_cases hmatch : e.pkg == row.pkg
      · rw [if_pos hmatch] at hfe
        rw [beq_iff_eq] at hmatch
        subst hfe
        dsimp only at h1 h2
        rcases Finset.mem_insert.mp h2 with h2 | h2
        · subst h2
          subst h1
          exact .inl (by rw [hmatch])
        · exact .inr ⟨e, he, h1, h2⟩
      · rw [if_neg hmatch] at hfe
        subst hfe
        exact .inr ⟨e, he, h1, h2⟩
    · rintro (hpair | ⟨e, he, h1, h2⟩)
      · obtain ⟨ha, hb⟩ := Prod.mk.injEq .. ▸ congrArg id hpair
        refine ⟨⟨e0.pkg, insert row.category e0.categories⟩,
          List.mem_map.mpr ⟨e0, he0, by rw [if_pos (beq_iff_eq.mpr heq0)]⟩,
          ?_, ?_⟩
        · simpa [heq0] using congrArg Prod.fst hpair
        · have hb2 : b = row.category := congrArg Prod.snd hpair
          subst hb2
          exact Finset.mem_insert_self _ _
      · by_cases hmatch : e.pkg == row.pkg
        · refine ⟨⟨e.pkg, insert row.category e.categories⟩,
            List.mem_map.mpr ⟨e, he, by rw [if_pos hmatch]⟩, h1,
            Finset.mem_insert_of_mem h2⟩
        · exact ⟨e, List.mem_map.mpr ⟨e, he, by rw [if_neg hmatch]⟩, h1, h2⟩
  · rw [if_neg hany]
    rw [mem_pairsV2, mem_pairsV2]
    constructor
    · rintro ⟨e, he, h1, h2⟩
      rcases List.mem_append.mp he with he | he
      · exact .inr ⟨e, he, h1, h2⟩
      · rw [List.mem_singleton] at he
        subst he
        dsimp only at h1 h2
        rw [Finset.mem_singleton] at h2
        subst h1
        subst h2
        exact .inl rfl
    · rintro (hpair | ⟨e, he, h1, h2⟩)
      · have ha : a = row.pkg := congrArg Prod.fst hpair
        have hb : b = row.category := congrArg Prod.snd hpair
        subst ha
        subst hb
        exact ⟨⟨row.pkg, {row.category}⟩,
          List.mem_append.mpr (.inr (List.mem_singleton.mpr rfl)), rfl,
          Finset.mem_singleton_self _⟩
      · exact ⟨e, List.mem_append.mpr (.inl he), h1, h2⟩

/-- Backward conversion accumulates exactly the input pairs. -/
lemma pairsV2_foldl (rows : List LockedDependencyV1) :
    ∀ acc, pairsV2 (rows.foldl addV1Row acc) = pairsV2 acc ∪ pairsV1 rows := by
  induction rows with
  | nil =>
    intro acc
    ext x
    simp [pairsV1]
  | cons r rows ih =>
    intro acc
    rw [List.foldl_cons, ih]
    ext x
    rw [Finset.mem_union, Finset.mem_union, mem_addV1Row, mem_pairsV1,
      mem_pairsV1]
    constructor
    · rintro ((hpair | hacc) | hrows)
      · exact .inr ⟨r, List.mem_cons_self r rows,
          congrArg Prod.fst hpair, congrArg Prod.snd hpair⟩
      · exact .inl hacc
      · obtain ⟨r2, hr2, h1, h2⟩ := hrows
        exact .inr ⟨r2, List.mem_cons_of_mem r hr2, h1, h2⟩
    · rintro (hacc | ⟨r2, hr2, h1, h2⟩)
      · exact .inl (.inr hacc)
      · rcases List.mem_cons.mp hr2 with hr2 | hr2
        · subst hr2
          refine .inl (.inl ?_)
          rcases x with ⟨a, b⟩
          dsimp only at h1 h2
          rw [h1, h2]
        · exact .inr ⟨r2, hr2, h1, h2⟩

/-- C4: converting legacy rows to the internal model and back
reproduces exactly the input's set of (package, category) pairs,
independently of the order of the input rows. -/
theorem roundtrip_conversion (rows rows2 : List LockedDependencyV1)
    (hperm : rows.Perm rows2) :
    pairsV1 (to_v1_list (from_v1 rows)) = pairsV1 rows ∧
    pairsV1 (to_v1_list (from_v1 rows2)) =
      pairsV1 (to_v1_list (from_v1 rows)) := by
  have main : ∀ rs : List LockedDependencyV1,
      pairsV1 (to_v1_list (from_v1 rs)) = pairsV1 rs := by
    intro rs
    rw [pairsV1_to_v1_list, from_v1, pairsV2_foldl]
    ext x
    simp [pairsV2]
  have hsame : pairsV1 rows2 = pairsV1 rows := by
    ext x
    rw [mem_pairsV1, mem_pairsV1]
    constructor
    · rintro ⟨r, hr, h1, h2⟩
      exact ⟨r, hperm.mem_iff.mpr hr, h1, h2⟩
    · rintro ⟨r, hr, h1, h2⟩
      exact ⟨r, hperm.mem_iff.mp hr, h1, h2⟩
  exact ⟨main rows, by rw [main rows2, main rows, hsame]⟩

def pkgB : PkgIdentity where
  name := "B"
  version := "1.0"
  manager := "conda"
  platform := "linux-64"
  dependencies := []
  url := "url-B"
  hashMd5 := some "md5-B"

/-- Scenario 5 of section 8: two legacy rows for B, categories main
and dev, in both orders. -/
def rowsB2 : List LockedDependencyV1 := [⟨pkgB, "main"⟩, ⟨pkgB, "dev"⟩]

def rowsB2Rev : List LockedDependencyV1 := [⟨pkgB, "dev"⟩, ⟨pkgB, "main"⟩]

/-- Witness for C4 on the two-row example in both orders. -/
theorem roundtrip_conversion_witness :
    pairsV1 (to_v1_list (from_v1 rowsB2)) = pairsV1 rowsB2 ∧
    pairsV1 (to_v1_list (from_v1 rowsB2Rev)) =
      pairsV1 (to_v1_list (from_v1 rowsB2)) :=
  roundtrip_conversion rowsB2 rowsB2Rev (by decide)

/-! ## Idempotence of the Reconciler -/

/-- The spec's uniqueness invariant (section 3): package names are
unique within one platform graph. -/
def namesNodup (g : Graph) : Prop := (g.map (fun p => p.name)).Nodup

lemma lookupPkg_eq_none_iff (g : Graph) (n : String) :
    lookupPkg g n = none ↔ ∀ p ∈ g, p.name ≠ n := by
  rw [lookupPkg, List.find?_eq_none]
  constructor
  · intro h p hp
    have := h p hp
    simpa using this
  · intro h p hp
    simpa using h p hp

lemma lookupPkg_eq_of_mem (g : Graph) (hnd : namesNodup g)
    (p : PlannedPackage) (hp : p ∈ g) : lookupPkg g p.name = some p := by
  induction g with
  | nil => cases hp
  | cons q g ih =>
    rw [namesNodup, List.map_cons, List.nodup_cons] at hnd
    rcases List.mem_cons.mp hp with hp | hp
    · subst hp
      rw [lookupPkg, List.find?_cons_of_pos _ (by simp)]
    · have hne : q.name ≠ p.name := by
        intro h
        exact hnd.1 (h ▸ List.mem_map.mpr ⟨p, hp, rfl⟩)
      rw [lookupPkg, List.find?_cons_of_neg _ (by simpa using hne)]
      exact ih hnd.2 hp

lemma lookupPkg_filter (g : Graph) (hnd : namesNodup g)
    (q : PlannedPackage → Bool) (n : String) :
    lookupPkg (g.filter q) n =
      match lookupPkg g n with
      | some p => if q p then some p else none
      | none => none := by
  induction g with
  | nil => rfl
  | cons p g ih =>
    rw [namesNodup, List.map_cons, List.nodup_cons] at hnd
    by_cases hn : p.name = n
    · have hfind : lookupPkg (p :: g) n = some p := by
        rw [lookupPkg, List.find?_cons_of_pos _ (by simp [hn])]
      rw [hfind]
      dsimp only
      by_cases hq : q p
      · rw [if_pos hq, List.filter_cons_of_pos hq]
        rw [lookupPkg, List.find?_cons_of_pos _ (by simp [hn])]
      · rw [if_neg hq, List.filter_cons_of_neg (by simpa using hq)]
        have habsent : lookupPkg g n = none := by
          rw [lookupPkg_eq_none_iff]
          intro p2 hp2 h2
          exact hnd.1 (by rw [hn, ← h2]; exact List.mem_map.mpr ⟨p2, hp2, rfl⟩)
        rw [ih hnd.2, habsent]
    · have hstep : lookupPkg (p :: g) n = lookupPkg g n := by
        rw [lookupPkg, List.find?_cons_of_neg _ (by simpa using hn), lookupPkg]
      rw [hstep]
      by_cases hq : q p
      · rw [List.filter_cons_of_pos hq]
        rw [lookupPkg, List.find?_cons_of_neg _ (by simpa using hn)]
        exact ih hnd.2
      · rw [List.filter_cons_of_neg (by simpa using hq)]
        exact ih hnd.2

lemma findDanglingEdge_eq_none_iff (g : Graph) :
    findDanglingEdge g = none ↔
      ∀ p ∈ g, ∀ t ∈ p.depends, (lookupPkg g t).isSome := by
  rw [findDanglingEdge, List.findSome?_eq_none_iff]
  constructor
  · intro h p hp t ht
    have := h p hp
    rw [Option.map_eq_none', List.find?_eq_none] at this
    have h2 := this t ht
    simp only [Option.isNone_iff_eq_none, decide_eq_true_eq] at h2
    rw [Option.isSome_iff_ne_none]
    exact h2
  · intro h p hp
    rw [Option.map_eq_none', List.find?_eq_none]
    intro t ht
    have := h p hp t ht
    simp only [Option.isNone_iff_eq_none, decide_eq_true_eq]
    rw [Option.isSome_iff_ne_none] at this
    exact this

/-- Accumulated visitedness is closed under edges. -/
lemma visitedFromRoots_closed (g : Graph) (roots : List RootRequest)
    {a b : String} (ha : visitedFromRoots g roots a = true)
    (hab : Edge g a b) : visitedFromRoots g roots b = true := by
  obtain ⟨r, hr, hmem⟩ := List.any_eq_true.mp ha
  refine List.any_eq_true.mpr ⟨r, hr, ?_⟩
  simp only [decide_eq_true_eq] at hmem ⊢
  exact reachSet_closed g hmem hab

/-- The visited predicate on packages, used to prune a graph. -/
def visPkg (g : Graph) (roots : List RootRequest) (p : PlannedPackage) : Bool :=
  visitedFromRoots g roots p.name

/-- The name of the package found by a lookup is the looked-up name. -/
lemma lookupPkg_name (g : Graph) (n : String) (p : PlannedPackage)
    (h : lookupPkg g n = some p) : p.name = n := by
  have := List.find?_some h
  simpa using this

/-- Edges survive pruning when the source is visited. -/
lemma edge_filter_of_edge (g : Graph) (roots : List RootRequest)
    (hnd : namesNodup g) {a b : String}
    (ha : visitedFromRoots g roots a = true) (hab : Edge g a b) :
    Edge (g.filter (visPkg g roots)) a b := by
  rw [Edge, depTargets] at hab ⊢
  cases hl : lookupPkg g a with
  | none => rw [hl] at hab; cases hab
  | some p =>
    rw [hl] at hab
    have hq : visPkg g roots p = true := by
      rw [visPkg, lookupPkg_name g a p hl]
      exact ha
    rw [lookupPkg_filter g hnd (visPkg g roots) a, hl]
    dsimp only
    rw [if_pos hq]
    exact hab

/-- Edges of the pruned graph are edges of the full graph. -/
lemma edge_of_edge_filter (g : Graph) (roots : List RootRequest)
    (hnd : namesNodup g) {a b : String}
    (hab : Edge (g.filter (visPkg g roots)) a b) : Edge g a b := by
  rw [Edge, depTargets] at hab ⊢
  rw [lookupPkg_filter g hnd (visPkg g roots) a] at hab
  cases hl : lookupPkg g a with
  | none => rw [hl] at hab; cases hab
  | some p =>
    rw [hl] at hab
    dsimp only at hab
    by_cases hq : visPkg g roots p = true
    · rw [if_pos hq] at hab
      exact hab
    · rw [if_neg hq] at hab
      cases hab

/-- Reachability from a visited start node is unaffected by pruning
the unvisited part of the graph. -/
lemma reach_filter_iff (g : Graph) (roots : List RootRequest)
    (hnd : namesNodup g) {a b : String}
    (ha : visitedFromRoots g roots a = true) :
    Reach (g.filter (visPkg g roots)) a b ↔ Reach g a b := by
  constructor
  · exact fun h =>
      Relation.ReflTransGen.mono
        (fun x y hxy => edge_of_edge_filter g roots hnd hxy) h
  · intro h
    refine @Relation.ReflTransGen.head_induction_on String (Edge g) b
      (fun x _ => visitedFromRoots g roots x = true →
        Reach (g.filter (visPkg g roots)) x b) a h
      (fun _ => Relation.ReflTransGen.refl) ?_ ha
    intro x y hxy hyb ih hx
    exact Relation.ReflTransGen.head
      (edge_filter_of_edge g roots hnd hx hxy)
      (ih (visitedFromRoots_closed g roots hx hxy))

lemma root_visited (g : Graph) (roots : List RootRequest) (r : RootRequest)
    (hr : r ∈ roots) : visitedFromRoots g roots r.name = true :=
  List.any_eq_true.mpr ⟨r, hr, by simpa using self_mem_reachSet g r.name⟩

lemma reachSet_filter_eq (g : Graph) (roots : List RootRequest)
    (hnd : namesNodup g) (r : RootRequest) (hr : r ∈ roots) :
    reachSet (g.filter (visPkg g roots)) r.name = reachSet g r.name := by
  ext b
  rw [mem_reachSet_iff, mem_reachSet_iff]
  exact reach_filter_iff g roots hnd (root_visited g roots r hr)

lemma visitedFromRoots_filter_eq (g : Graph) (roots : List RootRequest)
    (hnd : namesNodup g) (n : String) :
    visitedFromRoots (g.filter (visPkg g roots)) roots n =
      visitedFromRoots g roots n := by
  have hiff : (visitedFromRoots (g.filter (visPkg g roots)) roots n = true) ↔
      (visitedFromRoots g roots n = true) := by
    rw [visitedFromRoots, visitedFromRoots, List.any_eq_true, List.any_eq_true]
    constructor
    · rintro ⟨r, hr, h⟩
      refine ⟨r, hr, ?_⟩
      rw [reachSet_filter_eq g roots hnd r hr] at h
      exact h
    · rintro ⟨r, hr, h⟩
      refine ⟨r, hr, ?_⟩
      rw [reachSet_filter_eq g roots hnd r hr]
      exact h
  cases h1 : visitedFromRoots (g.filter (visPkg g roots)) roots n <;>
    cases h2 : visitedFromRoots g roots n <;> simp_all

lemma propagateAssign_filter_eq (g : Graph) (roots : List RootRequest)
    (hnd : namesNodup g) (n : String) :
    propagateAssign (g.filter (visPkg g roots)) roots n =
      propagateAssign g roots n := by
  ext c
  rw [mem_propagateAssign, mem_propagateAssign]
  constructor
  · rintro ⟨r, hr, h1, h2⟩
    refine ⟨r, hr, ?_, h2⟩
    rw [reachSet_filter_eq g roots hnd r hr] at h1
    exact h1
  · rintro ⟨r, hr, h1, h2⟩
    refine ⟨r, hr, ?_, h2⟩
    rw [reachSet_filter_eq g roots hnd r hr]
    exact h1

lemma findDanglingEdge_filter_none (g : Graph) (roots : List RootRequest)
    (hnd : namesNodup g) (hd : findDanglingEdge g = none) :
    findDanglingEdge (g.filter (visPkg g roots)) = none := by
  rw [findDanglingEdge_eq_none_iff] at hd ⊢
  intro p hp t ht
  have hp2 := List.mem_filter.mp hp
  have hsome := hd p hp2.1 t ht
  obtain ⟨qt, hqt⟩ := Option.isSome_iff_exists.mp hsome
  have hlp : lookupPkg g p.name = some p := lookupPkg_eq_of_mem g hnd p hp2.1
  have hedge : Edge g p.name t := by
    rw [Edge, depTargets, hlp]
    exact ht
  have hvt : visitedFromRoots g roots t = true :=
    visitedFromRoots_closed g roots hp2.2 hedge
  have hq : visPkg g roots qt = true := by
    rw [visPkg, lookupPkg_name g t qt hqt]
    exact hvt
  rw [lookupPkg_filter g hnd _ t, hqt]
  dsimp only
  rw [if_pos hq]
  rfl

lemma rootcheck_filter_none (g : Graph) (roots : List RootRequest)
    (hnd : namesNodup g)
    (hf : roots.find? (fun r => (lookupPkg g r.name).isNone) = none) :
    roots.find?
      (fun r => (lookupPkg (g.filter (visPkg g roots)) r.name).isNone) = none := by
  rw [List.find?_eq_none] at hf ⊢
  intro r hr
  have h1 := hf r hr
  simp only [Option.isNone_iff_eq_none] at h1 ⊢
  intro hcon
  cases hl : lookupPkg g r.name with
  | none => exact h1 (by simpa using hl)
  | some pr =>
    have hq : visPkg g roots pr = true := by
      rw [visPkg, lookupPkg_name g r.name pr hl]
      exact root_visited g roots r hr
    rw [lookupPkg_filter g hnd _ r.name, hl] at hcon
    dsimp only at hcon
    rw [if_pos hq] at hcon
    simp at hcon

lemma filterMap_filter_eq {α β : Type} (f : α → Option β) (q : α → Bool)
    (l : List α) (h : ∀ a, q a = false → f a = none) :
    (l.filter q).filterMap f = l.filterMap f := by
  induction l with
  | nil => rfl
  | cons a l ih =>
    cases hq : q a with
    | true =>
      rw [List.filter_cons_of_pos hq, List.filterMap_cons, List.filterMap_cons]
      cases f a <;> rw [ih]
    | false =>
      rw [List.filter_cons_of_neg (by simp [hq]), List.filterMap_cons,
        h a hq, ih]

lemma toPlanned_toLocked (p : PlannedPackage) (c : Finset String) :
    (p.toLocked c).toPlanned = p := rfl

lemma filterMap_toLocked (l : List PlannedPackage)
    (vis : PlannedPackage → Bool) (A : String → Finset String) :
    (l.filterMap (fun p =>
      if vis p then some (p.toLocked (A p.name)) else none)).map
        LockedDependency.toPlanned = l.filter vis := by
  induction l with
  | nil => rfl
  | cons p l ih =>
    cases hv : vis p with
    | true =>
      rw [List.filterMap_cons, if_pos hv, List.filter_cons_of_pos hv]
      rw [List.map_cons, toPlanned_toLocked, ih]
    | false =>
      rw [List.filterMap_cons, if_neg (by simp [hv]),
        List.filter_cons_of_neg (by simp [hv]), ih]

lemma mergedGraph_namesNodup (previous : List LockedDependency)
    (fresh : List PlannedPackage) (updated : List String)
    (h1 : (previous.map (fun ld => ld.name)).Nodup)
    (h2 : (fresh.map (fun p => p.name)).Nodup) :
    namesNodup (mergedGraph previous fresh updated) := by
  unfold mergedGraph namesNodup
  dsimp only
  rw [List.map_append]
  have hcn : ∀ l : List LockedDependency,
      (l.map LockedDependency.toPlanned).map (fun p => p.name) =
        l.map (fun ld => ld.name) := by
    intro l
    rw [List.map_map]
    rfl
  refine List.Nodup.append ?_ ?_ ?_
  · rw [hcn]
    exact h1.sublist ((List.filter_sublist _).map _)
  · exact h2.sublist ((List.filter_sublist _).map _)
  · intro a ha hb
    obtain ⟨p, hp, hpn⟩ := List.mem_map.mp hb
    have hp2 := List.mem_filter.mp hp
    have hcond := hp2.2
    have hmem : (((previous.filter (fun ld => !updated.contains ld.name)).map
        LockedDependency.toPlanned).map (fun q => q.name)).contains
          p.name = true := by
      rw [List.contains_eq_any_beq, List.any_eq_true]
      refine ⟨p.name, ?_, by simp⟩
      rw [hcn]
      rw [hcn] at ha
      rw [hpn]
      exact ha
    rw [hmem] at hcond
    simp at hcond

/-- C5: re-running the Reconciler on its own output with the same
RootRequest set, no freshly solved packages and an empty
updated-package set reproduces the output exactly, entry for entry,
hash and source locator included. -/
theorem reconciler_idempotent (roots : List RootRequest)
    (previous : List LockedDependency) (fresh : List PlannedPackage)
    (updated : List String) (out : List LockedDependency)
    (h1 : (previous.map (fun ld => ld.name)).Nodup)
    (h2 : (fresh.map (fun p => p.name)).Nodup)
    (hok : reconcile roots previous fresh updated = .ok out) :
    reconcile roots out [] [] = .ok out := by
  have hnd : namesNodup (mergedGraph previous fresh updated) :=
    mergedGraph_namesNodup previous fresh updated h1 h2
  obtain ⟨hd, hf, hout⟩ :=
    propagate_ok_inv roots (mergedGraph previous fresh updated) out hok
  have hm2 : mergedGraph out [] [] = out.map LockedDependency.toPlanned := by
    unfold mergedGraph
    simp
  have hmap : out.map LockedDependency.toPlanned =
      (mergedGraph previous fresh updated).filter
        (visPkg (mergedGraph previous fresh updated) roots) := by
    rw [hout]
    exact filterMap_toLocked (mergedGraph previous fresh updated)
      (fun p => visitedFromRoots (mergedGraph previous fresh updated) roots p.name)
      (propagateAssign (mergedGraph previous fresh updated) roots)
  rw [reconcile, hm2, hmap]
  unfold propagate
  rw [findDanglingEdge_filter_none (mergedGraph previous fresh updated)
    roots hnd hd]
  dsimp only
  rw [rootcheck_filter_none (mergedGraph previous fresh updated) roots hnd hf]
  dsimp only
  have hfun : (fun (p : PlannedPackage) =>
      if visitedFromRoots ((mergedGraph previous fresh updated).filter
          (visPkg (mergedGraph previous fresh updated) roots)) roots p.name then
        some (p.toLocked (propagateAssign
          ((mergedGraph previous fresh updated).filter
            (visPkg (mergedGraph previous fresh updated) roots)) roots p.name))
      else none) =
      (fun (p : PlannedPackage) =>
      if visitedFromRoots (mergedGraph previous fresh updated) roots p.name then
        some (p.toLocked (propagateAssign
          (mergedGraph previous fresh updated) roots p.name))
      else none) := by
    funext p
    rw [visitedFromRoots_filter_eq (mergedGraph previous fresh updated)
      roots hnd, propagateAssign_filter_eq (mergedGraph previous fresh updated)
      roots hnd]
  rw [hfun]
  rw [filterMap_filter_eq _ (visPkg (mergedGraph previous fresh updated) roots)
    (mergedGraph previous fresh updated)
    (fun p hp => by rw [if_neg (by simp [visPkg] at hp; simp [hp])])]
  rw [← hout]

/-- The chain with stale category data before reconciliation. -/
def prevStale : List LockedDependency :=
  [⟨"A", "1.0", "0", "hash-A", "url-A", ["B"], ∅⟩,
   ⟨"B", "1.0", "0", "hash-B", "url-B", ["C"], ∅⟩,
   ⟨"C", "1.0", "0", "hash-C", "url-C", [], ∅⟩]

/-- Witness for C5: reconciling the stale chain yields `prevChain`,
and reconciling `prevChain` again reproduces it byte for byte. -/
theorem reconciler_idempotent_witness :
    reconcile [rootA] prevChain [] [] = .ok prevChain :=
  reconciler_idempotent [rootA] prevStale [] [] prevChain
    (by decide) (by decide) (by decide)
